import Mathlib

/-!
Verification of the chunk-planning and result-merging core of a Go
transcription client (`main.go`).  Timestamps (Go `float64` seconds) are
modelled as rationals `ℚ`; machine floating point is modelled explicitly
(as correctly rounded binary64 over `ℚ`) only where a claim depends on it.
Loops are modelled as fuel-indexed recursion returning `Option`/state, so
that a non-terminating Go loop corresponds to `none` for every fuel.
-/

/-- Silence interval emitted by the `ffmpeg silencedetect` parser
(`SilencePoint` in `main.go`). -/
structure SilencePoint where
  Start : ℚ
  End : ℚ
deriving DecidableEq

/-- One step of the inner loop of `calculateSplitTimes` (`main.go:411-423`):
given the running `(bestTime, minDiff)`, a silence point's `End` becomes the
new `bestTime` when it lies strictly inside the window
`(currentTime*0.5, currentTime*1.5)` and improves `minDiff` (the `diff`
variable is `|sp.End - currentTime|`, computed in Go by negating when
negative). -/
def splitStep (currentTime : ℚ) (acc : ℚ × ℚ) (sp : SilencePoint) : ℚ × ℚ :=
  let diff := if sp.End - currentTime < 0 then -(sp.End - currentTime) else sp.End - currentTime
  if sp.End > currentTime * 0.5 ∧ sp.End < currentTime * 1.5 ∧ diff < acc.2
  then (sp.End, diff) else acc

/-- The inner loop of `calculateSplitTimes` (`main.go:408-423`): fold over
`silencePoints`, with `(bestTime, minDiff)` initialised to
`(currentTime, idealChunkDuration)`. -/
def findBestSplit (silencePoints : List SilencePoint) (currentTime idealChunkDuration : ℚ) :
    ℚ × ℚ :=
  silencePoints.foldl (splitStep currentTime) (currentTime, idealChunkDuration)

/-- The outer `for currentTime < totalDuration` loop of `calculateSplitTimes`
(`main.go:406-432`), fuel-indexed; `none` means the fuel ran out (the Go
loop would still be running).  `acc` holds the recorded split times in
reverse order. -/
def calculateSplitTimesLoop (totalDuration idealChunkDuration : ℚ)
    (silencePoints : List SilencePoint) : ℕ → ℚ → List ℚ → Option (List ℚ)
  | 0, _, _ => none
  | fuel + 1, currentTime, acc =>
    if currentTime < totalDuration then
      if totalDuration ≤ (findBestSplit silencePoints currentTime idealChunkDuration).1 then
        some acc.reverse
      else
        calculateSplitTimesLoop totalDuration idealChunkDuration silencePoints fuel
          ((findBestSplit silencePoints currentTime idealChunkDuration).1 + idealChunkDuration)
          ((findBestSplit silencePoints currentTime idealChunkDuration).1 :: acc)
    else some acc.reverse

/-- `calculateSplitTimes` (`main.go:402-435`): starts the scan at
`currentTime = idealChunkDuration` with no recorded splits. -/
def calculateSplitTimes (fuel : ℕ) (totalDuration idealChunkDuration : ℚ)
    (silencePoints : List SilencePoint) : Option (List ℚ) :=
  calculateSplitTimesLoop totalDuration idealChunkDuration silencePoints
    fuel idealChunkDuration []

/-- Reference loop for the amended C1: with no usable silence interval the
planner records the raw target itself and advances by `idealChunkDuration`. -/
def rawTargetsLoop (totalDuration idealChunkDuration : ℚ) : ℕ → ℚ → List ℚ → Option (List ℚ)
  | 0, _, _ => none
  | fuel + 1, currentTime, acc =>
    if currentTime < totalDuration then
      rawTargetsLoop totalDuration idealChunkDuration fuel
        (currentTime + idealChunkDuration) (currentTime :: acc)
    else some acc.reverse

/-- The raw-target sequence `L, 2L, …` truncated below `totalDuration`. -/
def rawTargets (fuel : ℕ) (totalDuration idealChunkDuration : ℚ) : Option (List ℚ) :=
  rawTargetsLoop totalDuration idealChunkDuration fuel idealChunkDuration []

/-- Boolean prefix test on character lists (used to model `strings.Split`
and `strings.HasSuffix`). -/
def hasPrefixChars : List Char → List Char → Bool
  | _, [] => true
  | [], _ :: _ => false
  | c :: cs, p :: ps => (c = p) && hasPrefixChars cs ps

/-- Model of Go `strings.HasSuffix`. -/
def hasSuffixStr (s suffix : String) : Bool :=
  hasPrefixChars s.data.reverse suffix.data.reverse

/-- Transcript segment (`Segment` in `main.go`); the Go `int` id is modelled
as `ℕ` (ids in this program are counters starting at 1). -/
structure Segment where
  ID : ℕ
  Start : ℚ
  End : ℚ
  Text : String
deriving DecidableEq

/-- Transcription result (`TranscriptionResult` in `main.go`). -/
structure TranscriptionResult where
  Text : String
  Language : String
  Segments : List Segment
  Duration : ℚ
deriving DecidableEq

/-- Audio chunk metadata (`AudioChunk` in `main.go`): file path and the
chunk's start time in the original audio. -/
structure AudioChunk where
  Path : String
  StartOffset : ℚ
deriving DecidableEq

/-- The mutable state threaded through `mergeResults`' loop
(`main.go:537-583`): language, accumulated text, accumulated segments,
and the segment id counter. -/
structure MergeState where
  language : String
  text : String
  segments : List Segment
  segmentID : ℕ
deriving DecidableEq

/-- One iteration of the `for i, result := range results` loop of
`mergeResults` (`main.go:546-583`): pick the first non-empty language,
append the chunk text (adding a newline if missing, skipping empty text),
shift and renumber the chunk's segments by `chunk.StartOffset`, and for a
non-first chunk with no segments synthesize a 10-second placeholder. -/
def mergeChunk (i : ℕ) (st : MergeState) (result : TranscriptionResult)
    (chunk : AudioChunk) : MergeState :=
  let language := if st.language = "" ∧ result.Language ≠ "" then result.Language else st.language
  let text :=
    if result.Text ≠ "" then
      (if hasSuffixStr result.Text "\n" then st.text ++ result.Text
       else st.text ++ result.Text ++ "\n")
    else st.text
  let offset := chunk.StartOffset
  let p := result.Segments.foldl
    (fun (p : List Segment × ℕ) seg =>
      (p.1 ++ [⟨p.2, seg.Start + offset, seg.End + offset, seg.Text⟩], p.2 + 1))
    (st.segments, st.segmentID)
  if result.Segments.length = 0 ∧ 0 < i then
    ⟨language, text, p.1 ++ [⟨p.2, offset, offset + 10, result.Text⟩], p.2 + 1⟩
  else
    ⟨language, text, p.1, p.2⟩

/-- The loop of `mergeResults` over the result/chunk pairs, with `i`
the running chunk index. -/
def mergeLoop : ℕ → MergeState → List (TranscriptionResult × AudioChunk) → MergeState
  | _, st, [] => st
  | i, st, (r, c) :: rest => mergeLoop (i + 1) (mergeChunk i st r c) rest

/-- `mergeResults` (`main.go:537-591`).  Go indexes `chunks[i]` while
ranging over `results`; the two lists are paired here with `zip` (callers
always pass lists of equal length).  `Duration` is the `End` of the last
merged segment, `0` (the Go zero value) if there is none. -/
def mergeResults (results : List TranscriptionResult) (chunks : List AudioChunk) :
    TranscriptionResult :=
  let st := mergeLoop 0 ⟨"", "", [], 1⟩ (results.zip chunks)
  { Text := st.text
    Language := st.language
    Segments := st.segments
    Duration := match st.segments.getLast? with
      | some s => s.End
      | none => 0 }

/-- Segments of one chunk shifted by `offset` and renumbered from `sid`
(spec §4.4 step 4: the counter is incremented once per emitted segment). -/
def shiftSegsFrom (offset : ℚ) : ℕ → List Segment → List Segment
  | _, [] => []
  | sid, seg :: rest =>
    ⟨sid, seg.Start + offset, seg.End + offset, seg.Text⟩ :: shiftSegsFrom offset (sid + 1) rest

/-- The segments one chunk contributes to the merged transcript, per the
spec (§4.4 steps 4-5): its segments shifted by the chunk offset and
renumbered from `sid`; if it has none and is not the first chunk, a single
placeholder `{start = offset, end = offset + 10, text = chunk text}`. -/
def chunkEmit (i sid : ℕ) (r : TranscriptionResult) (c : AudioChunk) : List Segment :=
  if r.Segments.length = 0 then
    if 0 < i then [⟨sid, c.StartOffset, c.StartOffset + 10, r.Text⟩] else []
  else shiftSegsFrom c.StartOffset sid r.Segments

/-- The full merged segment list per the spec: concatenation of each
chunk's contribution, the id counter advancing by the number of segments
each chunk emitted. -/
def specMergeSegs : ℕ → ℕ → List (TranscriptionResult × AudioChunk) → List Segment
  | _, _, [] => []
  | i, sid, (r, c) :: rest =>
    chunkEmit i sid r c ++ specMergeSegs (i + 1) (sid + (chunkEmit i sid r c).length) rest

/-- `[s, s+1, …, s+n-1]`: the ids a counter starting at `s` hands out to
`n` consecutive segments. -/
def countFrom : ℕ → ℕ → List ℕ
  | _, 0 => []
  | s, n + 1 => s :: countFrom (s + 1) n

/-- What one chunk adds to the merged `text` in the Go code: its text plus
a newline when the text is non-empty and does not already end with one;
nothing at all when the text is empty. -/
def textContribution (r : TranscriptionResult) : String :=
  if r.Text ≠ "" then
    (if hasSuffixStr r.Text "\n" then r.Text else r.Text ++ "\n")
  else ""

/-- The merged text of the Go code, chunk by chunk. -/
def mergedTextOf : List TranscriptionResult → String
  | [] => ""
  | r :: rest => textContribution r ++ mergedTextOf rest

/-- Modelled from the spec (§4.4 step 2, claim C9's words): concatenation
of each chunk's text, a newline appended whenever the text does not end
with one — with no special case for empty text. -/
def specMergeTextOf : List TranscriptionResult → String
  | [] => ""
  | r :: rest =>
    (if hasSuffixStr r.Text "\n" then r.Text else r.Text ++ "\n") ++ specMergeTextOf rest

/-- Fuel-indexed worker for `strings.Split` on character lists: scan for the
(non-empty) separator `sep`, emitting the piece accumulated in `acc`
(kept reversed) at each occurrence.  Any fuel `≥` the length of the
scanned list is enough, so the fuel-exhausted clause is never reached by
`splitOnStr`. -/
def splitOnCharsAux (sep : List Char) : ℕ → List Char → List Char → List (List Char)
  | _, [], acc => [acc.reverse]
  | 0, s, acc => [acc.reverse ++ s]
  | fuel + 1, c :: cs, acc =>
    if hasPrefixChars (c :: cs) sep then
      acc.reverse :: splitOnCharsAux sep fuel (cs.drop (sep.length - 1)) []
    else splitOnCharsAux sep fuel cs (c :: acc)

/-- Model of Go `strings.Split` for a non-empty separator. -/
def splitOnStr (s sep : String) : List String :=
  (splitOnCharsAux sep.data s.data.length s.data []).map fun l => ⟨l⟩

/-- Whitespace per Go `unicode.IsSpace` (the code points that can occur in
`ffmpeg` diagnostic lines). -/
def isSpaceChar (c : Char) : Bool :=
  c = ' ' ∨ c = '\t' ∨ c = '\n' ∨ c = '\x0b' ∨ c = '\x0c' ∨ c = '\r'

/-- Model of Go `strings.TrimSpace` on character lists. -/
def trimChars (l : List Char) : List Char :=
  ((l.dropWhile isSpaceChar).reverse.dropWhile isSpaceChar).reverse

/-- Model of Go `strings.TrimSpace`. -/
def trimStr (s : String) : String := ⟨trimChars s.data⟩

/-- Decimal digits to a natural number. -/
def digitsToNat (l : List Char) : ℕ := l.foldl (fun n c => 10 * n + (c.toNat - 48)) 0

/-- Model of `fmt.Sscanf(s, "%f", &t)` as used on `silencedetect`
timestamps: an optional sign, then decimal digits with an optional
fractional part; at least one digit must be present, anything after the
recognised prefix is ignored.  (Exponents and the `Inf`/`NaN` spellings
accepted by the full Go scanner do not occur in these diagnostics and are
not modelled.) -/
def parseFloatChars (l : List Char) : Option ℚ :=
  let signAndRest : ℚ × List Char :=
    match l with
    | '-' :: rest => (-1, rest)
    | '+' :: rest => (1, rest)
    | _ => (1, l)
  let sign := signAndRest.1
  let afterSign := signAndRest.2
  let intDigits := afterSign.takeWhile Char.isDigit
  let afterInt := afterSign.dropWhile Char.isDigit
  let fracDigits :=
    match afterInt with
    | '.' :: r => r.takeWhile Char.isDigit
    | _ => []
  if intDigits.isEmpty ∧ fracDigits.isEmpty then none
  else
    some (sign * ((digitsToNat intDigits : ℚ) +
      (digitsToNat fracDigits : ℚ) / (10 : ℚ) ^ fracDigits.length))

/-- `parseSilenceTime` (`main.go:323-330`): split on `"|"`, trim the first
part, parse it as a float. -/
def parseSilenceTime (s : String) : Option ℚ :=
  parseFloatChars (trimChars ((splitOnStr s "|").getD 0 "").data)

/-- One line of the parsing loop of `detectSilence` (`main.go:291-313`).
State: `(currentStart, points)`, with `currentStart` initialised to the Go
zero value `0`.  A line containing `"silence_start:"` overwrites
`currentStart` when its timestamp parses; otherwise a line containing
`"silence_end:"` appends `{currentStart, end}` when its timestamp parses;
lines whose timestamp fails to parse leave the state unchanged.  (Go
checks `strings.Contains` and then `len(parts) > 1` after `strings.Split`;
for a non-empty marker the two checks are equivalent, and `parts[1]` is
the text after the first occurrence of the marker.) -/
def detectSilenceStep (st : ℚ × List SilencePoint) (line : String) : ℚ × List SilencePoint :=
  let startParts := splitOnStr line "silence_start:"
  if 1 < startParts.length then
    match parseSilenceTime (trimStr (startParts.getD 1 "")) with
    | some start => (start, st.2)
    | none => st
  else
    let endParts := splitOnStr line "silence_end:"
    if 1 < endParts.length then
      match parseSilenceTime (trimStr (endParts.getD 1 "")) with
      | some e => (st.1, st.2 ++ [⟨st.1, e⟩])
      | none => st
    else st

/-- The parsing core of `detectSilence` (`main.go:269-320`), applied to the
lines of the `ffmpeg` diagnostic output (the external process invocation
itself is outside the model). -/
def detectSilenceLines (lines : List String) : List SilencePoint :=
  (lines.foldl detectSilenceStep ((0 : ℚ), ([] : List SilencePoint))).2

/-- A chunk file on disk, for the `createAudioChunks` model: the temp-file
path is identified by the chunk index used in its name. -/
structure ChunkFile where
  path : ℕ
  startOffset : ℚ
deriving DecidableEq

/-- The cleanup loop of `createAudioChunks` (`main.go:467-470` and
`main.go:500-503`): `os.Remove(c.Path)` for every chunk created so far. -/
def removeAll (disk : List ℕ) (chunks : List ChunkFile) : List ℕ :=
  chunks.foldl (fun d c => d.filter fun p => p ≠ c.path) disk

/-- The extraction loop of `createAudioChunks` (`main.go:446-480`).
`ok i` says whether the i-th `ffmpeg` extraction succeeds (a failed
extraction creates no file); `disk` is the list of chunk files this call
has created and not removed.  On a failure every previously created chunk
file is removed and the error propagates. -/
def createChunksLoop (ok : ℕ → Bool) :
    List ℚ → ℕ → ℚ → List ChunkFile → List ℕ →
    Except Unit (List ChunkFile) × List ℕ × ℚ
  | [], _, startTime, chunks, disk => (Except.ok chunks, disk, startTime)
  | endTime :: rest, i, startTime, chunks, disk =>
    if ok i then
      createChunksLoop ok rest (i + 1) endTime
        (chunks ++ [⟨i, startTime⟩]) (disk ++ [i])
    else (Except.error (), removeAll disk chunks, startTime)

/-- The tail of `createAudioChunks` (`main.go:482-511`): after the loop,
when the last recorded end lies before `duration`, extract one final
unbounded chunk (the `ffmpeg` invocation with index `n`), again removing
every previously created chunk file on failure. -/
def createAudioChunksFinish (ok : ℕ → Bool) (duration : ℚ) (n : ℕ) :
    Except Unit (List ChunkFile) × List ℕ × ℚ → Except Unit (List ChunkFile) × List ℕ
  | (Except.error e, disk, _) => (Except.error e, disk)
  | (Except.ok chunks, disk, startTime) =>
    if startTime < duration then
      if ok n then
        (Except.ok (chunks ++ [⟨n, startTime⟩]), disk ++ [n])
      else (Except.error (), removeAll disk chunks)
    else (Except.ok chunks, disk)

/-- `createAudioChunks` (`main.go:438-514`): extract one chunk per split
time, then possibly a final unbounded chunk, removing all previously
created chunk files if any extraction fails.  Returns the resulting chunk
list (or the error) and the chunk files left on disk. -/
def createAudioChunks (ok : ℕ → Bool) (duration : ℚ) (splitTimes : List ℚ) :
    Except Unit (List ChunkFile) × List ℕ :=
  createAudioChunksFinish ok duration splitTimes.length
    (createChunksLoop ok splitTimes 0 0 [] [])

/-- `⌊log2 n⌋` for `n ≥ 1` (0 for `n = 0`), by fuel-indexed halving; any
fuel `≥ log2 n` is exact, and `128` covers every numerator and denominator
arising below. -/
def natLog2F : ℕ → ℕ → ℕ
  | 0, _ => 0
  | _, 0 => 0
  | fuel + 1, n => if n ≤ 1 then 0 else natLog2F fuel (n / 2) + 1

/-- `2^e` in `ℚ` for an integer exponent. -/
def qpow2 (e : ℤ) : ℚ := (2 : ℚ) ^ e

/-- `⌊log2 q⌋` for a positive rational: with `a = ⌊log2 num⌋` and
`b = ⌊log2 den⌋`, `q` lies in `(2^(a-b-1), 2^(a-b+1))`, so the value is
`a - b - 1` or `a - b`, decided by one comparison. -/
def rlog2 (q : ℚ) : ℤ :=
  if q < qpow2 ((natLog2F 128 q.num.toNat : ℤ) - (natLog2F 128 q.den : ℤ))
  then (natLog2F 128 q.num.toNat : ℤ) - (natLog2F 128 q.den : ℤ) - 1
  else (natLog2F 128 q.num.toNat : ℤ) - (natLog2F 128 q.den : ℤ)

/-- Round a rational to the nearest integer, ties to even (the IEEE-754
default rounding). -/
def roundHalfEven (q : ℚ) : ℤ :=
  if q - (⌊q⌋ : ℚ) < 1/2 then ⌊q⌋
  else if 1/2 < q - (⌊q⌋ : ℚ) then ⌊q⌋ + 1
  else if ⌊q⌋ % 2 = 0 then ⌊q⌋ else ⌊q⌋ + 1

/-- Correctly rounded binary64 value of a positive rational (53-bit
significand; overflow and subnormals do not arise for the timestamp
magnitudes involved and are not modelled). -/
def fl64pos (q : ℚ) : ℚ :=
  (roundHalfEven (q * qpow2 (52 - rlog2 q)) : ℚ) * qpow2 (rlog2 q - 52)

/-- Correctly rounded binary64 value of a rational. -/
def fl64 (q : ℚ) : ℚ :=
  if q = 0 then 0 else if 0 < q then fl64pos q else -fl64pos (-q)

/-- One IEEE-754 binary64 addition. -/
def fadd (x y : ℚ) : ℚ := fl64 (x + y)

/-- One IEEE-754 binary64 subtraction. -/
def fsub (x y : ℚ) : ℚ := fl64 (x - y)

/-- One IEEE-754 binary64 multiplication. -/
def fmul (x y : ℚ) : ℚ := fl64 (x * y)

/-- One IEEE-754 binary64 division. -/
def fdiv (x y : ℚ) : ℚ := fl64 (x / y)

/-- Go's `int(f)` float-to-int conversion: truncation toward zero. -/
def truncQ (q : ℚ) : ℤ := if q < 0 then -⌊-q⌋ else ⌊q⌋

/-- Decimal rendering of `n` left-padded with zeros to `width` digits
(Go `%02d`/`%03d` on the non-negative values produced here). -/
def padNum (width n : ℕ) : String :=
  let ds := Nat.toDigits 10 n
  ⟨List.replicate (width - ds.length) '0' ++ ds⟩

/-- The `fmt.Sprintf("%02d:%02d:%02d,%03d", …)` of `formatSRTTime`. -/
def formatSRT (hours minutes secs millis : ℤ) : String :=
  padNum 2 hours.toNat ++ ":" ++ padNum 2 minutes.toNat ++ ":" ++
    padNum 2 secs.toNat ++ "," ++ padNum 3 millis.toNat

/-- `formatSRTTime` (`main.go:198-204`) with every `float64` operation
modelled as a correctly rounded binary64 operation over `ℚ`: each line
recomputes `seconds - hours*3600 - …` in float arithmetic and truncates
with `int(…)`. -/
def formatSRTTime64 (seconds : ℚ) : String :=
  let hours := truncQ (fdiv seconds 3600)
  let minutes := truncQ (fdiv (fsub seconds (fmul (hours : ℚ) 3600)) 60)
  let secs := truncQ (fsub (fsub seconds (fmul (hours : ℚ) 3600)) (fmul (minutes : ℚ) 60))
  let millis := truncQ (fmul (fsub (fsub (fsub seconds (fmul (hours : ℚ) 3600))
      (fmul (minutes : ℚ) 60)) (secs : ℚ)) 1000)
  formatSRT hours minutes secs millis

/-- `formatSRTTime` under exact rational arithmetic (the spec's intended
reading, with no floating-point rounding). -/
def formatSRTTimeRat (seconds : ℚ) : String :=
  let hours := truncQ (seconds / 3600)
  let minutes := truncQ ((seconds - (hours : ℚ) * 3600) / 60)
  let secs := truncQ (seconds - (hours : ℚ) * 3600 - (minutes : ℚ) * 60)
  let millis := truncQ ((seconds - (hours : ℚ) * 3600 - (minutes : ℚ) * 60 - (secs : ℚ)) * 1000)
  formatSRT hours minutes secs millis

/-! ### Split-planner lemmas -/

theorem ifNeg_abs (x : ℚ) : (if x < 0 then -x else x) = |x| := by
  by_cases h : x < 0
  · rw [if_pos h, abs_of_neg h]
  · rw [if_neg h, abs_of_nonneg (not_lt.mp h)]

theorem foldl_splitStep_inv (t L : ℚ) :
    ∀ (sps : List SilencePoint) (b m : ℚ),
      m ≤ L → (b = t ∨ (t * 0.5 < b ∧ |b - t| < L)) →
      ((sps.foldl (splitStep t) (b, m)).1 = t ∨
        (t * 0.5 < (sps.foldl (splitStep t) (b, m)).1 ∧
          |(sps.foldl (splitStep t) (b, m)).1 - t| < L)) := by
  intro sps
  induction sps with
  | nil => intro b m _ hb; simpa using hb
  | cons sp rest ih =>
    intro b m hm hb
    rw [List.foldl_cons]
    by_cases h : sp.End > t * 0.5 ∧ sp.End < t * 1.5 ∧
        (if sp.End - t < 0 then -(sp.End - t) else sp.End - t) < m
    · have hstep : splitStep t (b, m) sp =
          (sp.End, if sp.End - t < 0 then -(sp.End - t) else sp.End - t) := by
        simp only [splitStep]
        rw [if_pos h]
      rw [hstep]
      have habs : |sp.End - t| < m := by rw [← ifNeg_abs]; exact h.2.2
      have hmle : (if sp.End - t < 0 then -(sp.End - t) else sp.End - t) ≤ L := by
        rw [ifNeg_abs]
        exact le_of_lt (lt_of_lt_of_le habs hm)
      exact ih sp.End _ hmle (Or.inr ⟨h.1, lt_of_lt_of_le habs hm⟩)
    · have hstep : splitStep t (b, m) sp = (b, m) := by
        simp only [splitStep]
        rw [if_neg h]
      rw [hstep]
      exact ih b m hm hb

theorem findBestSplit_cases (sps : List SilencePoint) (t L : ℚ) :
    (findBestSplit sps t L).1 = t ∨
      (t * 0.5 < (findBestSplit sps t L).1 ∧ |(findBestSplit sps t L).1 - t| < L) :=
  foldl_splitStep_inv t L sps t L le_rfl (Or.inl rfl)

theorem foldl_splitStep_nonpos (t : ℚ) :
    ∀ (sps : List SilencePoint) (b m : ℚ), m ≤ 0 →
      sps.foldl (splitStep t) (b, m) = (b, m) := by
  intro sps
  induction sps with
  | nil => intro b m _; rfl
  | cons sp rest ih =>
    intro b m hm
    rw [List.foldl_cons]
    have hstep : splitStep t (b, m) sp = (b, m) := by
      simp only [splitStep]
      rw [if_neg]
      intro h
      have h1 := h.2.2
      rw [ifNeg_abs] at h1
      exact absurd (lt_of_le_of_lt (abs_nonneg _) h1) (not_lt.mpr hm)
    rw [hstep]
    exact ih b m hm

theorem findBestSplit_nonpos (sps : List SilencePoint) (t L : ℚ) (hL : L ≤ 0) :
    findBestSplit sps t L = (t, L) :=
  foldl_splitStep_nonpos t sps t L hL

theorem foldl_splitStep_noWindow (t : ℚ) :
    ∀ (sps : List SilencePoint),
      (∀ p ∈ sps, ¬(p.End > t * 0.5 ∧ p.End < t * 1.5)) →
      ∀ b m : ℚ, sps.foldl (splitStep t) (b, m) = (b, m) := by
  intro sps
  induction sps with
  | nil => intro _ b m; rfl
  | cons sp rest ih =>
    intro hw b m
    rw [List.foldl_cons]
    have hstep : splitStep t (b, m) sp = (b, m) := by
      simp only [splitStep]
      rw [if_neg]
      intro h
      exact hw sp (List.mem_cons_self sp rest) ⟨h.1, h.2.1⟩
    rw [hstep]
    exact ih (fun p hp => hw p (List.mem_cons_of_mem sp hp)) b m

theorem calculateSplitTimesLoop_nonpos (D L : ℚ) (sps : List SilencePoint) (hL : L ≤ 0) :
    ∀ (fuel : ℕ) (t : ℚ) (acc : List ℚ), t < D →
      calculateSplitTimesLoop D L sps fuel t acc = none := by
  intro fuel
  induction fuel with
  | zero => intro t acc _; rfl
  | succ n ih =>
    intro t acc ht
    have hfb : (findBestSplit sps t L).1 = t := by rw [findBestSplit_nonpos sps t L hL]
    show (if t < D then _ else _) = none
    rw [if_pos ht, hfb, if_neg (not_le.mpr ht)]
    exact ih (t + L) (t :: acc) (lt_of_le_of_lt (by linarith) ht)

theorem splits_reversed_goal (D : ℚ) (acc : List ℚ)
    (hbound : ∀ a ∈ acc, 0 < a ∧ a < D)
    (hpair : acc.Pairwise fun a b => b < a) :
    acc.reverse.Pairwise (· < ·) ∧ ∀ x ∈ acc.reverse, 0 < x ∧ x < D := by
  constructor
  · rw [List.pairwise_reverse]
    exact hpair
  · intro x hx
    exact hbound x (List.mem_reverse.mp hx)

theorem calculateSplitTimesLoop_sound (D L : ℚ) (sps : List SilencePoint) (hL : 0 < L) :
    ∀ (fuel : ℕ) (t : ℚ) (acc res : List ℚ),
      0 < t →
      (∀ a ∈ acc, 0 < a ∧ a < D) →
      (∀ a ∈ acc, a + L ≤ t) →
      acc.Pairwise (fun a b => b < a) →
      calculateSplitTimesLoop D L sps fuel t acc = some res →
      res.Pairwise (· < ·) ∧ ∀ x ∈ res, 0 < x ∧ x < D := by
  intro fuel
  induction fuel with
  | zero =>
    intro t acc res _ _ _ _ h
    exact Option.noConfusion h
  | succ n ih =>
    intro t acc res ht hbound hle hpair h
    rw [show calculateSplitTimesLoop D L sps (n + 1) t acc =
        (if t < D then
          if D ≤ (findBestSplit sps t L).1 then some acc.reverse
          else calculateSplitTimesLoop D L sps n ((findBestSplit sps t L).1 + L)
            ((findBestSplit sps t L).1 :: acc)
        else some acc.reverse) from rfl] at h
    by_cases htD : t < D
    · rw [if_pos htD] at h
      by_cases hDb : D ≤ (findBestSplit sps t L).1
      · rw [if_pos hDb] at h
        injection h with h2
        rw [← h2]
        exact splits_reversed_goal D acc hbound hpair
      · rw [if_neg hDb] at h
        have hbD : (findBestSplit sps t L).1 < D := not_le.mp hDb
        have hcases := findBestSplit_cases sps t L
        have hb0 : 0 < (findBestSplit sps t L).1 := by
          rcases hcases with hbt | ⟨hw, _⟩
          · rw [hbt]; exact ht
          · linarith
        have hlt : ∀ a ∈ acc, a < (findBestSplit sps t L).1 := by
          intro a ha
          have hat := hle a ha
          rcases hcases with hbt | ⟨_, habs⟩
          · rw [hbt]; linarith
          · have h1 := (abs_lt.mp habs).1
            linarith
        refine ih ((findBestSplit sps t L).1 + L) ((findBestSplit sps t L).1 :: acc) res
          (by linarith) ?_ ?_ ?_ h
        · intro a ha
          rcases List.mem_cons.mp ha with rfl | ha'
          · exact ⟨hb0, hbD⟩
          · exact hbound a ha'
        · intro a ha
          rcases List.mem_cons.mp ha with rfl | ha'
          · exact le_rfl
          · have := hlt a ha'
            linarith
        · exact List.pairwise_cons.mpr ⟨fun a ha => hlt a ha, hpair⟩
    · rw [if_neg htD] at h
      injection h with h2
      rw [← h2]
      exact splits_reversed_goal D acc hbound hpair

theorem calculateSplitTimesLoop_emptySilence (D L : ℚ) :
    ∀ (fuel : ℕ) (t : ℚ) (acc : List ℚ),
      calculateSplitTimesLoop D L [] fuel t acc = rawTargetsLoop D L fuel t acc := by
  intro fuel
  induction fuel with
  | zero => intro t acc; rfl
  | succ n ih =>
    intro t acc
    show (if t < D then _ else _) = (if t < D then _ else _)
    by_cases ht : t < D
    · rw [if_pos ht, if_pos ht]
      have hfb : (findBestSplit [] t L).1 = t := rfl
      rw [hfb, if_neg (not_le.mpr ht)]
      exact ih (t + L) (t :: acc)
    · rw [if_neg ht, if_neg ht]

/-! ### Claims C1 and C2 -/

/-- C1 counterexample: with total duration 10, ideal chunk duration 4 and
no silence intervals at all, `calculateSplitTimes` still records the
splits `[4, 8]` — the raw targets — so it is false that every recorded
split point coincides with the end of a detected silence interval (and
false that the scan stops when no interval lies in the window). -/
theorem claim_C1_counterexample :
    calculateSplitTimes 5 10 4 [] = some [4, 8] ∧
      ¬(∀ ts, calculateSplitTimes 5 10 4 [] = some ts →
        ∀ x ∈ ts, ∃ p ∈ ([] : List SilencePoint), p.End = x) := by
  have h : calculateSplitTimes 5 10 4 [] = some [4, 8] := by
    norm_num [calculateSplitTimes, calculateSplitTimesLoop, findBestSplit]
  refine ⟨h, fun hall => ?_⟩
  rcases hall [4, 8] h 4 (by norm_num) with ⟨p, hp, _⟩
  exact absurd hp (List.not_mem_nil p)

/-- C1 amended: when no silence interval's end lies in the search window
around the current target, `calculateSplitTimes` falls back to the raw
target time itself (the Go comment at `main.go:425`: "if no suitable
silence point was found, use the current time"): the inner scan leaves
`bestTime = currentTime`, the raw target is recorded when it is `< D`, and
the scan continues; in particular with no silence intervals the planner
returns exactly the raw targets `L, 2L, …` below `D`. -/
theorem claim_C1_amended_fallback :
    (∀ (fuel : ℕ) (D L : ℚ), calculateSplitTimes fuel D L [] = rawTargets fuel D L) ∧
    (∀ (sps : List SilencePoint) (t L : ℚ),
      (∀ p ∈ sps, ¬(p.End > t * 0.5 ∧ p.End < t * 1.5)) →
      (findBestSplit sps t L).1 = t) := by
  constructor
  · intro fuel D L
    exact calculateSplitTimesLoop_emptySilence D L fuel L []
  · intro sps t L hw
    rw [findBestSplit, foldl_splitStep_noWindow t sps hw t L]

/-- Witness for the amended C1 at concrete inputs. -/
theorem claim_C1_amended_fallback_witness :
    calculateSplitTimes 5 10 4 [] = rawTargets 5 10 4 ∧
      (findBestSplit [⟨0, 100⟩] 4 4).1 = 4 := by
  refine ⟨claim_C1_amended_fallback.1 5 10 4,
    claim_C1_amended_fallback.2 [⟨0, 100⟩] 4 4 ?_⟩
  intro p hp
  rw [List.mem_singleton] at hp
  subst hp
  norm_num

/-- C2: for any total duration `D > 0`, any ideal chunk duration `L`, and
any silence interval list, every split list `calculateSplitTimes` returns
(for any fuel) is strictly increasing and each split `sp` satisfies
`0 < sp < D`.  (For `L ≤ 0` the Go loop never terminates; the model
returns `none` for every fuel, so no returned list violates the bounds.) -/
theorem claim_C2_split_points_bounded_increasing (fuel : ℕ) (D L : ℚ)
    (sps : List SilencePoint) (ts : List ℚ) (hD : 0 < D)
    (h : calculateSplitTimes fuel D L sps = some ts) :
    ts.Pairwise (· < ·) ∧ ∀ x ∈ ts, 0 < x ∧ x < D := by
  rcases lt_or_le 0 L with hL | hL
  · exact calculateSplitTimesLoop_sound D L sps hL fuel L [] ts hL
      (by intro a ha; cases ha) (by intro a ha; cases ha) List.Pairwise.nil h
  · rw [calculateSplitTimes,
      calculateSplitTimesLoop_nonpos D L sps hL fuel L [] (lt_of_le_of_lt hL hD)] at h
    exact Option.noConfusion h

/-- Witness for C2 at concrete inputs. -/
theorem claim_C2_split_points_witness :
    calculateSplitTimes 5 10 4 [⟨1, 3⟩] = some [3, 7] ∧
      (([3, 7] : List ℚ).Pairwise (· < ·) ∧ ∀ x ∈ ([3, 7] : List ℚ), 0 < x ∧ x < 10) := by
  have h : calculateSplitTimes 5 10 4 [⟨1, 3⟩] = some [3, 7] := by
    norm_num [calculateSplitTimes, calculateSplitTimesLoop, findBestSplit, splitStep]
  exact ⟨h, claim_C2_split_points_bounded_increasing 5 10 4 [⟨1, 3⟩] [3, 7] (by norm_num) h⟩

/-! ### Merger lemmas -/

theorem foldl_mergeSegs (offset : ℚ) :
    ∀ (segs acc : List Segment) (sid : ℕ),
      segs.foldl (fun (p : List Segment × ℕ) seg =>
          (p.1 ++ [⟨p.2, seg.Start + offset, seg.End + offset, seg.Text⟩], p.2 + 1))
        (acc, sid) =
      (acc ++ shiftSegsFrom offset sid segs, sid + segs.length) := by
  intro segs
  induction segs with
  | nil =>
    intro acc sid
    simp [shiftSegsFrom]
  | cons seg rest ih =>
    intro acc sid
    rw [List.foldl_cons, ih]
    simp [shiftSegsFrom]
    omega

theorem shiftSegsFrom_length (offset : ℚ) :
    ∀ (segs : List Segment) (sid : ℕ),
      (shiftSegsFrom offset sid segs).length = segs.length := by
  intro segs
  induction segs with
  | nil => intro sid; rfl
  | cons seg rest ih =>
    intro sid
    simp [shiftSegsFrom, ih]

theorem mergeChunk_spec (i : ℕ) (st : MergeState) (r : TranscriptionResult) (c : AudioChunk) :
    (mergeChunk i st r c).segments = st.segments ++ chunkEmit i st.segmentID r c ∧
    (mergeChunk i st r c).segmentID = st.segmentID + (chunkEmit i st.segmentID r c).length := by
  by_cases h0 : r.Segments.length = 0
  · have hnil : r.Segments = [] := List.length_eq_zero.mp h0
    by_cases hi : 0 < i
    · simp [mergeChunk, chunkEmit, hnil, hi, shiftSegsFrom]
    · simp [mergeChunk, chunkEmit, hnil, hi, shiftSegsFrom]
  · have hneg : ¬(r.Segments.length = 0 ∧ 0 < i) := fun h => h0 h.1
    simp [mergeChunk, chunkEmit, h0, hneg, foldl_mergeSegs, shiftSegsFrom_length]

theorem mergeLoop_spec :
    ∀ (l : List (TranscriptionResult × AudioChunk)) (i : ℕ) (st : MergeState),
      (mergeLoop i st l).segments = st.segments ++ specMergeSegs i st.segmentID l ∧
      (mergeLoop i st l).segmentID = st.segmentID + (specMergeSegs i st.segmentID l).length := by
  intro l
  induction l with
  | nil =>
    intro i st
    simp [mergeLoop, specMergeSegs]
  | cons rc rest ih =>
    intro i st
    obtain ⟨r, c⟩ := rc
    rw [show mergeLoop i st ((r, c) :: rest) = mergeLoop (i + 1) (mergeChunk i st r c) rest
      from rfl]
    have hm := mergeChunk_spec i st r c
    have hrest := ih (i + 1) (mergeChunk i st r c)
    refine ⟨?_, ?_⟩
    · rw [hrest.1, hm.1, hm.2,
        show specMergeSegs i st.segmentID ((r, c) :: rest) =
          chunkEmit i st.segmentID r c ++
            specMergeSegs (i + 1) (st.segmentID + (chunkEmit i st.segmentID r c).length) rest
          from rfl,
        List.append_assoc]
    · rw [hrest.2, hm.2,
        show specMergeSegs i st.segmentID ((r, c) :: rest) =
          chunkEmit i st.segmentID r c ++
            specMergeSegs (i + 1) (st.segmentID + (chunkEmit i st.segmentID r c).length) rest
          from rfl,
        List.length_append]
      omega

theorem mergeResults_segments (rs : List TranscriptionResult) (cs : List AudioChunk) :
    (mergeResults rs cs).Segments = specMergeSegs 0 1 (rs.zip cs) := by
  show (mergeLoop 0 ⟨"", "", [], 1⟩ (rs.zip cs)).segments = _
  rw [(mergeLoop_spec (rs.zip cs) 0 ⟨"", "", [], 1⟩).1]
  rfl

theorem shiftSegsFrom_ids (offset : ℚ) :
    ∀ (segs : List Segment) (sid : ℕ),
      (shiftSegsFrom offset sid segs).map Segment.ID = countFrom sid segs.length := by
  intro segs
  induction segs with
  | nil => intro sid; rfl
  | cons seg rest ih =>
    intro sid
    simp [shiftSegsFrom, countFrom, ih]

theorem countFrom_append :
    ∀ (m s n : ℕ), countFrom s (m + n) = countFrom s m ++ countFrom (s + m) n := by
  intro m
  induction m with
  | zero =>
    intro s n
    simp [countFrom]
  | succ k ih =>
    intro s n
    have h1 : k + 1 + n = (k + n) + 1 := by omega
    rw [h1]
    show s :: countFrom (s + 1) (k + n) = (s :: countFrom (s + 1) k) ++ countFrom (s + (k + 1)) n
    rw [ih (s + 1) n, List.cons_append]
    have h2 : s + 1 + k = s + (k + 1) := by omega
    rw [h2]

theorem chunkEmit_ids (i sid : ℕ) (r : TranscriptionResult) (c : AudioChunk) :
    (chunkEmit i sid r c).map Segment.ID = countFrom sid (chunkEmit i sid r c).length := by
  by_cases h0 : r.Segments.length = 0
  · by_cases hi : 0 < i
    · simp [chunkEmit, h0, hi, countFrom]
    · simp [chunkEmit, h0, hi, countFrom]
  · simp [chunkEmit, h0, shiftSegsFrom_ids, shiftSegsFrom_length]

theorem specMergeSegs_ids :
    ∀ (l : List (TranscriptionResult × AudioChunk)) (i sid : ℕ),
      (specMergeSegs i sid l).map Segment.ID = countFrom sid (specMergeSegs i sid l).length := by
  intro l
  induction l with
  | nil => intro i sid; rfl
  | cons rc rest ih =>
    intro i sid
    obtain ⟨r, c⟩ := rc
    rw [show specMergeSegs i sid ((r, c) :: rest) =
        chunkEmit i sid r c ++
          specMergeSegs (i + 1) (sid + (chunkEmit i sid r c).length) rest from rfl,
      List.map_append, List.length_append, countFrom_append]
    rw [chunkEmit_ids, ih]

/-! ### Claims C3 and C5 -/

/-- C3: the merged segment list is exactly the per-chunk contributions in
order — each input segment of each chunk yielding one output segment with
`start`/`end` shifted by that chunk's `StartOffset` and `text` unchanged
(see `chunkEmit`/`shiftSegsFrom`) — the output ids are the contiguous
sequence `1, 2, …, k` handed out by a counter starting at 1, and the merged
`Duration` is the `End` of the last emitted segment, or `0` if none was
emitted. -/
theorem claim_C3_merge_renumbers_and_shifts (rs : List TranscriptionResult)
    (cs : List AudioChunk) :
    (mergeResults rs cs).Segments = specMergeSegs 0 1 (rs.zip cs) ∧
    (mergeResults rs cs).Segments.map Segment.ID =
      countFrom 1 (mergeResults rs cs).Segments.length ∧
    (mergeResults rs cs).Duration =
      (match (mergeResults rs cs).Segments.getLast? with
        | some s => s.End
        | none => 0) := by
  refine ⟨mergeResults_segments rs cs, ?_, ?_⟩
  · rw [mergeResults_segments rs cs]
    exact specMergeSegs_ids (rs.zip cs) 0 1
  · rfl

/-- C5: a non-first chunk with zero segments contributes exactly one
placeholder segment `{start = offset, end = offset + 10, text = chunk
text}` consuming one id, the first chunk with zero segments contributes
nothing, and merging three chunks at offsets `0, 95, 205` whose second
chunk has no segments yields the placeholder `{start 95, end 105}` with
contiguous ids `1, 2, 3, 4`. -/
theorem claim_C5_zero_segment_placeholder :
    (mergeResults
        [⟨"", "", [⟨1, 0, 40, "a1"⟩, ⟨2, 40, 90, "a2"⟩], 0⟩,
         ⟨"", "", [], 0⟩,
         ⟨"", "", [⟨1, 5, 60, "c1"⟩], 0⟩]
        [⟨"p1", 0⟩, ⟨"p2", 95⟩, ⟨"p3", 205⟩]).Segments =
      [⟨1, 0, 40, "a1"⟩, ⟨2, 40, 90, "a2"⟩, ⟨3, 95, 105, ""⟩, ⟨4, 210, 265, "c1"⟩] ∧
    (∀ (rs : List TranscriptionResult) (cs : List AudioChunk),
      (mergeResults rs cs).Segments = specMergeSegs 0 1 (rs.zip cs)) ∧
    (∀ (i sid : ℕ) (r : TranscriptionResult) (c : AudioChunk),
      r.Segments = [] → 0 < i →
      chunkEmit i sid r c = [⟨sid, c.StartOffset, c.StartOffset + 10, r.Text⟩]) ∧
    (∀ (sid : ℕ) (r : TranscriptionResult) (c : AudioChunk),
      r.Segments = [] → chunkEmit 0 sid r c = []) := by
  refine ⟨?_, mergeResults_segments, ?_, ?_⟩
  · norm_num [mergeResults, mergeLoop, mergeChunk]
  · intro i sid r c hseg hi
    simp [chunkEmit, hseg, hi]
  · intro sid r c hseg
    simp [chunkEmit, hseg]

/-- Witness for C5's conditional parts at concrete inputs. -/
theorem claim_C5_zero_segment_placeholder_witness :
    chunkEmit 2 7 ⟨"tail", "", [], 0⟩ ⟨"p", 95⟩ = [⟨7, 95, 105, "tail"⟩] ∧
    chunkEmit 0 7 ⟨"head", "", [], 0⟩ ⟨"p", 0⟩ = [] := by
  constructor
  · have h := claim_C5_zero_segment_placeholder.2.2.1 2 7 ⟨"tail", "", [], 0⟩ ⟨"p", 95⟩
      rfl (by norm_num)
    rw [h]
    norm_num
  · exact claim_C5_zero_segment_placeholder.2.2.2 7 ⟨"head", "", [], 0⟩ ⟨"p", 0⟩ rfl

/-! ### Merged-text lemmas and claim C9 -/

theorem mergeChunk_text (i : ℕ) (st : MergeState) (r : TranscriptionResult) (c : AudioChunk) :
    (mergeChunk i st r c).text = st.text ++ textContribution r := by
  simp only [mergeChunk, apply_ite MergeState.text, ite_self]
  by_cases h : r.Text = ""
  · simp [textContribution, h]
  · by_cases hs : hasSuffixStr r.Text "\n" = true
    · simp [textContribution, h, hs]
    · simp [textContribution, h, hs, String.append_assoc]

theorem mergeLoop_text :
    ∀ (l : List (TranscriptionResult × AudioChunk)) (i : ℕ) (st : MergeState),
      (mergeLoop i st l).text = st.text ++ mergedTextOf (l.map Prod.fst) := by
  intro l
  induction l with
  | nil =>
    intro i st
    simp [mergeLoop, mergedTextOf]
  | cons rc rest ih =>
    intro i st
    obtain ⟨r, c⟩ := rc
    rw [show mergeLoop i st ((r, c) :: rest) = mergeLoop (i + 1) (mergeChunk i st r c) rest
      from rfl]
    rw [ih (i + 1) (mergeChunk i st r c), mergeChunk_text]
    simp [mergedTextOf, String.append_assoc]

theorem mergeResults_text (rs : List TranscriptionResult) (cs : List AudioChunk)
    (h : rs.length = cs.length) :
    (mergeResults rs cs).Text = mergedTextOf rs := by
  show (mergeLoop 0 ⟨"", "", [], 1⟩ (rs.zip cs)).text = _
  rw [mergeLoop_text (rs.zip cs) 0 ⟨"", "", [], 1⟩, List.map_fst_zip rs cs (le_of_eq h)]
  rfl

theorem mergedTextOf_eq_spec :
    ∀ (rs : List TranscriptionResult), (∀ r ∈ rs, r.Text ≠ "") →
      mergedTextOf rs = specMergeTextOf rs := by
  intro rs
  induction rs with
  | nil => intro _; rfl
  | cons r rest ih =>
    intro h
    rw [show mergedTextOf (r :: rest) = textContribution r ++ mergedTextOf rest from rfl,
      show specMergeTextOf (r :: rest) =
        (if hasSuffixStr r.Text "\n" then r.Text else r.Text ++ "\n") ++ specMergeTextOf rest
        from rfl,
      ih (fun x hx => h x (List.mem_cons_of_mem r hx))]
    unfold textContribution
    rw [if_pos (h r (List.mem_cons_self r rest))]

/-- C9 counterexample: a chunk with empty text contributes nothing at all
to the merged text — no newline is appended for it — so the merged text is
not the claimed concatenation in which every chunk's text ends with a line
break before the next chunk's text. -/
theorem claim_C9_counterexample :
    (mergeResults [⟨"", "", [], 0⟩, ⟨"hi", "", [], 0⟩] [⟨"p1", 0⟩, ⟨"p2", 5⟩]).Text = "hi\n" ∧
    specMergeTextOf [⟨"", "", [], 0⟩, ⟨"hi", "", [], 0⟩] = "\nhi\n" ∧
    (mergeResults [⟨"", "", [], 0⟩, ⟨"hi", "", [], 0⟩] [⟨"p1", 0⟩, ⟨"p2", 5⟩]).Text ≠
      specMergeTextOf [⟨"", "", [], 0⟩, ⟨"hi", "", [], 0⟩] := by
  refine ⟨by decide, by decide, by decide⟩

/-- C9 amended: the merged text is the concatenation over chunks of the
chunk's text followed by a newline when the text is non-empty and lacks
one, while a chunk with empty text is skipped entirely (not even a newline
is added); when every chunk's text is non-empty this coincides with the
claimed concatenation in which each chunk's text ends with a line break
before the next is appended. -/
theorem claim_C9_amended_text_concat (rs : List TranscriptionResult) (cs : List AudioChunk)
    (h : rs.length = cs.length) :
    (mergeResults rs cs).Text = mergedTextOf rs ∧
    ((∀ r ∈ rs, r.Text ≠ "") → (mergeResults rs cs).Text = specMergeTextOf rs) := by
  refine ⟨mergeResults_text rs cs h, fun hne => ?_⟩
  rw [mergeResults_text rs cs h, mergedTextOf_eq_spec rs hne]

/-- Witness for the amended C9 at concrete inputs. -/
theorem claim_C9_amended_text_concat_witness :
    (mergeResults [⟨"a", "", [], 0⟩, ⟨"b\n", "", [], 0⟩] [⟨"p", 0⟩, ⟨"q", 5⟩]).Text =
        mergedTextOf [⟨"a", "", [], 0⟩, ⟨"b\n", "", [], 0⟩] ∧
    (mergeResults [⟨"a", "", [], 0⟩, ⟨"b\n", "", [], 0⟩] [⟨"p", 0⟩, ⟨"q", 5⟩]).Text =
        specMergeTextOf [⟨"a", "", [], 0⟩, ⟨"b\n", "", [], 0⟩] := by
  have h := claim_C9_amended_text_concat [⟨"a", "", [], 0⟩, ⟨"b\n", "", [], 0⟩]
    [⟨"p", 0⟩, ⟨"q", 5⟩] rfl
  exact ⟨h.1, h.2 (by decide)⟩

/-! ### Segment-start monotonicity lemmas and claim C10 -/

theorem shiftSegsFrom_mem (offset : ℚ) :
    ∀ (segs : List Segment) (sid : ℕ) (seg : Segment),
      seg ∈ shiftSegsFrom offset sid segs → ∃ s ∈ segs, seg.Start = s.Start + offset := by
  intro segs
  induction segs with
  | nil => intro sid seg h; cases h
  | cons s0 rest ih =>
    intro sid seg h
    rcases List.mem_cons.mp h with rfl | h'
    · exact ⟨s0, List.mem_cons_self s0 rest, rfl⟩
    · rcases ih (sid + 1) seg h' with ⟨s, hs, heq⟩
      exact ⟨s, List.mem_cons_of_mem s0 hs, heq⟩

theorem shiftSegsFrom_starts (offset : ℚ) :
    ∀ (segs : List Segment) (sid : ℕ),
      (shiftSegsFrom offset sid segs).map Segment.Start =
        segs.map fun s => s.Start + offset := by
  intro segs
  induction segs with
  | nil => intro sid; rfl
  | cons s0 rest ih =>
    intro sid
    simp [shiftSegsFrom, ih]

theorem chunkEmit_starts_sorted (i sid : ℕ) (r : TranscriptionResult) (c : AudioChunk)
    (h : (r.Segments.map Segment.Start).Pairwise (· ≤ ·)) :
    ((chunkEmit i sid r c).map Segment.Start).Pairwise (· ≤ ·) := by
  by_cases h0 : r.Segments.length = 0
  · by_cases hi : 0 < i
    · simp [chunkEmit, h0, hi]
    · simp [chunkEmit, h0, hi]
  · rw [show chunkEmit i sid r c = shiftSegsFrom c.StartOffset sid r.Segments by
      simp [chunkEmit, h0]]
    rw [shiftSegsFrom_starts]
    rw [List.pairwise_map] at h ⊢
    exact h.imp fun hab => by linarith

theorem chunkEmit_starts_lb (i sid : ℕ) (r : TranscriptionResult) (c : AudioChunk)
    (hpos : ∀ s ∈ r.Segments, 0 ≤ s.Start) :
    ∀ seg ∈ chunkEmit i sid r c, c.StartOffset ≤ seg.Start := by
  intro seg hseg
  by_cases h0 : r.Segments.length = 0
  · by_cases hi : 0 < i
    · simp [chunkEmit, h0, hi] at hseg
      rw [hseg]
    · simp [chunkEmit, h0, hi] at hseg
  · rw [show chunkEmit i sid r c = shiftSegsFrom c.StartOffset sid r.Segments by
      simp [chunkEmit, h0]] at hseg
    rcases shiftSegsFrom_mem c.StartOffset r.Segments sid seg hseg with ⟨s, hs, heq⟩
    have := hpos s hs
    rw [heq]
    linarith

theorem chunkEmit_starts_ub (i sid : ℕ) (r : TranscriptionResult) (c : AudioChunk) (q : ℚ)
    (hoffq : c.StartOffset ≤ q)
    (hgapq : ∀ s ∈ r.Segments, s.Start + c.StartOffset ≤ q) :
    ∀ seg ∈ chunkEmit i sid r c, seg.Start ≤ q := by
  intro seg hseg
  by_cases h0 : r.Segments.length = 0
  · by_cases hi : 0 < i
    · simp [chunkEmit, h0, hi] at hseg
      rw [hseg]
      exact hoffq
    · simp [chunkEmit, h0, hi] at hseg
  · rw [show chunkEmit i sid r c = shiftSegsFrom c.StartOffset sid r.Segments by
      simp [chunkEmit, h0]] at hseg
    rcases shiftSegsFrom_mem c.StartOffset r.Segments sid seg hseg with ⟨s, hs, heq⟩
    rw [heq]
    exact hgapq s hs

theorem specMergeSegs_starts_lb :
    ∀ (l : List (TranscriptionResult × AudioChunk)) (i sid : ℕ) (q : ℚ),
      (∀ p ∈ l, q ≤ p.2.StartOffset) →
      (∀ p ∈ l, ∀ s ∈ p.1.Segments, 0 ≤ s.Start) →
      ∀ seg ∈ specMergeSegs i sid l, q ≤ seg.Start := by
  intro l
  induction l with
  | nil => intro i sid q _ _ seg h; cases h
  | cons pc rest ih =>
    intro i sid q hq hpos seg hseg
    obtain ⟨r, c⟩ := pc
    rw [show specMergeSegs i sid ((r, c) :: rest) = chunkEmit i sid r c ++
        specMergeSegs (i + 1) (sid + (chunkEmit i sid r c).length) rest from rfl] at hseg
    rcases List.mem_append.mp hseg with h1 | h2
    · have hlb := chunkEmit_starts_lb i sid r c
        (hpos (r, c) (List.mem_cons_self _ _)) seg h1
      have := hq (r, c) (List.mem_cons_self _ _)
      linarith
    · exact ih (i + 1) _ q (fun p hp => hq p (List.mem_cons_of_mem _ hp))
        (fun p hp => hpos p (List.mem_cons_of_mem _ hp)) seg h2

theorem specMergeSegs_starts_sorted :
    ∀ (l : List (TranscriptionResult × AudioChunk)) (i sid : ℕ),
      l.Pairwise (fun pc pc' => pc.2.StartOffset ≤ pc'.2.StartOffset) →
      (∀ p ∈ l, (p.1.Segments.map Segment.Start).Pairwise (· ≤ ·)) →
      (∀ p ∈ l, ∀ s ∈ p.1.Segments, 0 ≤ s.Start) →
      l.Chain' (fun pc pc' => ∀ s ∈ pc.1.Segments,
        s.Start + pc.2.StartOffset ≤ pc'.2.StartOffset) →
      ((specMergeSegs i sid l).map Segment.Start).Pairwise (· ≤ ·) := by
  intro l
  induction l with
  | nil => intro i sid _ _ _ _; simp [specMergeSegs]
  | cons pc rest ih =>
    intro i sid hoff hloc hpos hgap
    obtain ⟨r, c⟩ := pc
    rw [show specMergeSegs i sid ((r, c) :: rest) = chunkEmit i sid r c ++
        specMergeSegs (i + 1) (sid + (chunkEmit i sid r c).length) rest from rfl,
      List.map_append, List.pairwise_append]
    refine ⟨chunkEmit_starts_sorted i sid r c (hloc (r, c) (List.mem_cons_self _ _)), ?_, ?_⟩
    · exact ih (i + 1) _ (List.pairwise_cons.mp hoff).2
        (fun p hp => hloc p (List.mem_cons_of_mem _ hp))
        (fun p hp => hpos p (List.mem_cons_of_mem _ hp))
        hgap.tail
    · cases rest with
      | nil =>
        intro a _ b hb
        simp [specMergeSegs] at hb
      | cons pc' rest' =>
        obtain ⟨r', c'⟩ := pc'
        intro a ha b hb
        rcases List.mem_map.mp ha with ⟨sega, hsega, rfl⟩
        rcases List.mem_map.mp hb with ⟨segb, hsegb, rfl⟩
        have hoff1 : c.StartOffset ≤ c'.StartOffset :=
          (List.pairwise_cons.mp hoff).1 (r', c') (List.mem_cons_self _ _)
        have hgap1 : ∀ s ∈ r.Segments, s.Start + c.StartOffset ≤ c'.StartOffset :=
          (List.chain'_cons.mp hgap).1
        have ha' : sega.Start ≤ c'.StartOffset :=
          chunkEmit_starts_ub i sid r c c'.StartOffset hoff1 hgap1 sega hsega
        have hb' : c'.StartOffset ≤ segb.Start := by
          refine specMergeSegs_starts_lb ((r', c') :: rest') (i + 1) _ c'.StartOffset
            ?_ (fun p hp => hpos p (List.mem_cons_of_mem _ hp)) segb hsegb
          intro p hp
          rcases List.mem_cons.mp hp with rfl | hp'
          · exact le_rfl
          · exact (List.pairwise_cons.mp (List.pairwise_cons.mp hoff).2).1 p hp'
        linarith

/-- C10 counterexample: with non-decreasing chunk offsets `0, 10` but a
first-chunk segment whose local start (50) exceeds the second chunk's
offset, the merged segment starts are `[50, 10]` — decreasing — so
non-decreasing chunk offsets alone do not make the merged `start` values
non-decreasing. -/
theorem claim_C10_counterexample :
    (([⟨"p", 0⟩, ⟨"q", 10⟩] : List AudioChunk).map AudioChunk.StartOffset).Pairwise (· ≤ ·) ∧
    ¬ ((mergeResults [⟨"", "", [⟨1, 50, 51, "x"⟩], 0⟩, ⟨"", "", [⟨1, 0, 1, "y"⟩], 0⟩]
        [⟨"p", 0⟩, ⟨"q", 10⟩]).Segments.map Segment.Start).Pairwise (· ≤ ·) := by
  have hsegs : (mergeResults [⟨"", "", [⟨1, 50, 51, "x"⟩], 0⟩, ⟨"", "", [⟨1, 0, 1, "y"⟩], 0⟩]
      [⟨"p", 0⟩, ⟨"q", 10⟩]).Segments = [⟨1, 50, 51, "x"⟩, ⟨2, 10, 11, "y"⟩] := by
    norm_num [mergeResults, mergeLoop, mergeChunk]
  constructor
  · norm_num
  · rw [hsegs]
    intro hp
    norm_num [List.pairwise_cons] at hp

/-- C10 amended: the merged segment `start` values are non-decreasing
across the whole sequence provided chunk offsets are non-decreasing AND
each chunk's local segment starts are non-negative, non-decreasing within
the chunk, and (shifted by the chunk's offset) do not exceed the next
chunk's offset — conditions that hold for chunk-local timestamps lying
within the chunk's time range but that `mergeResults` itself does not
check. -/
theorem claim_C10_amended_starts_monotone (rs : List TranscriptionResult)
    (cs : List AudioChunk)
    (hoff : (rs.zip cs).Pairwise (fun pc pc' => pc.2.StartOffset ≤ pc'.2.StartOffset))
    (hloc : ∀ p ∈ rs.zip cs, (p.1.Segments.map Segment.Start).Pairwise (· ≤ ·))
    (hpos : ∀ p ∈ rs.zip cs, ∀ s ∈ p.1.Segments, 0 ≤ s.Start)
    (hgap : (rs.zip cs).Chain' (fun pc pc' => ∀ s ∈ pc.1.Segments,
      s.Start + pc.2.StartOffset ≤ pc'.2.StartOffset)) :
    ((mergeResults rs cs).Segments.map Segment.Start).Pairwise (· ≤ ·) := by
  rw [mergeResults_segments]
  exact specMergeSegs_starts_sorted (rs.zip cs) 0 1 hoff hloc hpos hgap

/-- Witness for the amended C10 at concrete inputs (offsets `0, 95, 205`,
the second chunk without segments). -/
theorem claim_C10_amended_starts_monotone_witness :
    ((mergeResults [⟨"", "", [⟨1, 0, 5, "x"⟩], 0⟩, ⟨"", "", [], 0⟩, ⟨"", "", [⟨1, 2, 3, "z"⟩], 0⟩]
      [⟨"p", 0⟩, ⟨"q", 95⟩, ⟨"t", 205⟩]).Segments.map Segment.Start).Pairwise (· ≤ ·) := by
  refine claim_C10_amended_starts_monotone _ _ ?_ ?_ ?_ ?_
  · decide
  · decide
  · decide
  · norm_num [List.chain'_cons]

/-! ### Chunk-extraction cleanup lemmas and claim C6 -/

theorem removeAll_nil_of_subset :
    ∀ (chunks : List ChunkFile) (disk : List ℕ),
      (∀ x ∈ disk, ∃ c ∈ chunks, x = c.path) →
      removeAll disk chunks = [] := by
  intro chunks
  induction chunks with
  | nil =>
    intro disk h
    cases disk with
    | nil => rfl
    | cons x xs =>
      rcases h x (List.mem_cons_self x xs) with ⟨c, hc, _⟩
      cases hc
  | cons c cs ih =>
    intro disk h
    show removeAll (disk.filter fun p => p ≠ c.path) cs = []
    apply ih
    intro x hx
    have hmem := List.mem_filter.mp hx
    have hne : x ≠ c.path := of_decide_eq_true hmem.2
    rcases h x hmem.1 with ⟨c', hc', heq⟩
    rcases List.mem_cons.mp hc' with rfl | hc''
    · exact absurd heq hne
    · exact ⟨c', hc'', heq⟩

theorem createChunksLoop_disk (ok : ℕ → Bool) :
    ∀ (ts : List ℚ) (i : ℕ) (t : ℚ) (chunks : List ChunkFile) (disk : List ℕ),
      disk = chunks.map ChunkFile.path →
      ((∀ cs, (createChunksLoop ok ts i t chunks disk).1 = Except.ok cs →
          (createChunksLoop ok ts i t chunks disk).2.1 = cs.map ChunkFile.path) ∧
        (∀ e, (createChunksLoop ok ts i t chunks disk).1 = Except.error e →
          (createChunksLoop ok ts i t chunks disk).2.1 = [])) := by
  intro ts
  induction ts with
  | nil =>
    intro i t chunks disk hdisk
    constructor
    · intro cs h
      injection h with h'
      rw [show (createChunksLoop ok [] i t chunks disk).2.1 = disk from rfl, hdisk, h']
    · intro e h
      exact Except.noConfusion h
  | cons endTime rest ih =>
    intro i t chunks disk hdisk
    by_cases hok : ok i = true
    · rw [show createChunksLoop ok (endTime :: rest) i t chunks disk =
          createChunksLoop ok rest (i + 1) endTime (chunks ++ [⟨i, t⟩]) (disk ++ [i]) by
        show (if ok i = true then _ else _) = _
        rw [if_pos hok]]
      apply ih
      rw [hdisk, List.map_append]
      rfl
    · rw [show createChunksLoop ok (endTime :: rest) i t chunks disk =
          (Except.error (), removeAll disk chunks, t) by
        show (if ok i = true then _ else _) = _
        rw [if_neg hok]]
      constructor
      · intro cs h
        exact Except.noConfusion h
      · intro e _
        show removeAll disk chunks = []
        apply removeAll_nil_of_subset
        intro x hx
        rw [hdisk] at hx
        rcases List.mem_map.mp hx with ⟨c', hc', heq⟩
        exact ⟨c', hc', heq.symm⟩

/-- C6: `createAudioChunks` is all-or-nothing for the chunk files it
creates: on success the files on disk are exactly one per returned chunk,
and on any extraction failure every previously created chunk file has been
removed (and no chunks are returned) before the error propagates. -/
theorem claim_C6_all_or_nothing (ok : ℕ → Bool) (duration : ℚ) (splitTimes : List ℚ) :
    (∀ cs, (createAudioChunks ok duration splitTimes).1 = Except.ok cs →
      (createAudioChunks ok duration splitTimes).2 = cs.map ChunkFile.path) ∧
    (∀ e, (createAudioChunks ok duration splitTimes).1 = Except.error e →
      (createAudioChunks ok duration splitTimes).2 = []) := by
  have hloop := createChunksLoop_disk ok splitTimes 0 0 [] [] rfl
  unfold createAudioChunks
  rcases hres : createChunksLoop ok splitTimes 0 0 [] [] with ⟨exc, disk, t⟩
  rw [hres] at hloop
  cases exc with
  | error e =>
    rw [show createAudioChunksFinish ok duration splitTimes.length (Except.error e, disk, t) =
      (Except.error e, disk) from rfl]
    constructor
    · intro cs h
      exact Except.noConfusion h
    · intro e' _
      exact hloop.2 e rfl
  | ok chunks =>
    have hdisk : disk = chunks.map ChunkFile.path := hloop.1 chunks rfl
    rw [show createAudioChunksFinish ok duration splitTimes.length (Except.ok chunks, disk, t) =
      (if t < duration then
        if ok splitTimes.length then
          (Except.ok (chunks ++ [⟨splitTimes.length, t⟩]), disk ++ [splitTimes.length])
        else (Except.error (), removeAll disk chunks)
      else (Except.ok chunks, disk)) from rfl]
    by_cases ht : t < duration
    · rw [if_pos ht]
      by_cases hok : ok splitTimes.length = true
      · rw [if_pos hok]
        constructor
        · intro cs h
          injection h with h'
          rw [← h', List.map_append, hdisk]
          rfl
        · intro e h
          exact Except.noConfusion h
      · rw [if_neg hok]
        constructor
        · intro cs h
          exact Except.noConfusion h
        · intro e _
          show removeAll disk chunks = []
          apply removeAll_nil_of_subset
          intro x hx
          rw [hdisk] at hx
          rcases List.mem_map.mp hx with ⟨c', hc', heq⟩
          exact ⟨c', hc', heq.symm⟩
    · rw [if_neg ht]
      constructor
      · intro cs h
        injection h with h'
        rw [← h', hdisk]
      · intro e h
        exact Except.noConfusion h

/-- Witness for C6 at concrete inputs: the second of two extractions
fails, and the chunk file created for the first has been removed. -/
theorem claim_C6_all_or_nothing_witness :
    (createAudioChunks (fun i => i == 0) 30 [10, 20]).1 = Except.error () ∧
    (createAudioChunks (fun i => i == 0) 30 [10, 20]).2 = [] := by
  have h1 : (createAudioChunks (fun i => i == 0) 30 [10, 20]).1 = Except.error () := by
    rfl
  exact ⟨h1, (claim_C6_all_or_nothing (fun i => i == 0) 30 [10, 20]).2 () h1⟩

/-! ### Silence-parser lemmas and claims C4 and C8 -/

theorem detectSilenceStep_noStart (st : ℚ × List SilencePoint) (l : String)
    (h : ¬1 < (splitOnStr l "silence_start:").length) :
    (detectSilenceStep st l).1 = st.1 ∧
      ∀ p ∈ (detectSilenceStep st l).2, p ∈ st.2 ∨ p.Start = st.1 := by
  simp only [detectSilenceStep]
  rw [if_neg h]
  by_cases he : 1 < (splitOnStr l "silence_end:").length
  · rw [if_pos he]
    cases hp : parseSilenceTime (trimStr ((splitOnStr l "silence_end:").getD 1 "")) with
    | none => exact ⟨rfl, fun p hp' => Or.inl hp'⟩
    | some e =>
      refine ⟨rfl, fun p hp' => ?_⟩
      rcases List.mem_append.mp hp' with h1 | h2
      · exact Or.inl h1
      · rw [List.mem_singleton.mp h2]
        exact Or.inr rfl
  · rw [if_neg he]
    exact ⟨rfl, fun p hp' => Or.inl hp'⟩

theorem foldl_detectSilence_noStart :
    ∀ (lines : List String) (st : ℚ × List SilencePoint),
      (∀ l ∈ lines, ¬1 < (splitOnStr l "silence_start:").length) →
      (lines.foldl detectSilenceStep st).1 = st.1 ∧
      ∀ p ∈ (lines.foldl detectSilenceStep st).2, p ∈ st.2 ∨ p.Start = st.1 := by
  intro lines
  induction lines with
  | nil => intro st _; exact ⟨rfl, fun p hp => Or.inl hp⟩
  | cons l rest ih =>
    intro st h
    have hstep := detectSilenceStep_noStart st l (h l (List.mem_cons_self _ _))
    have hrest := ih (detectSilenceStep st l) (fun x hx => h x (List.mem_cons_of_mem _ hx))
    rw [List.foldl_cons]
    constructor
    · rw [hrest.1, hstep.1]
    · intro p hp
      rcases hrest.2 p hp with hmem | hst
      · exact hstep.2 p hmem
      · rw [hstep.1] at hst
        exact Or.inr hst

theorem detectSilenceStep_start_snd (st : ℚ × List SilencePoint) (l : String)
    (h : 1 < (splitOnStr l "silence_start:").length) :
    (detectSilenceStep st l).2 = st.2 := by
  cases hp : parseSilenceTime (trimStr ((splitOnStr l "silence_start:").getD 1 "")) with
  | none =>
    have hstep : detectSilenceStep st l = st := by
      simp only [detectSilenceStep]
      rw [if_pos h, hp]
    rw [hstep]
  | some v =>
    have hstep : detectSilenceStep st l = (v, st.2) := by
      simp only [detectSilenceStep]
      rw [if_pos h, hp]
    rw [hstep]

theorem detectSilenceStep_malformed (st : ℚ × List SilencePoint) (l : String)
    (h : (1 < (splitOnStr l "silence_start:").length ∧
        parseSilenceTime (trimStr ((splitOnStr l "silence_start:").getD 1 "")) = none) ∨
      (¬1 < (splitOnStr l "silence_start:").length ∧
        1 < (splitOnStr l "silence_end:").length ∧
        parseSilenceTime (trimStr ((splitOnStr l "silence_end:").getD 1 "")) = none)) :
    detectSilenceStep st l = st := by
  simp only [detectSilenceStep]
  rcases h with ⟨h1, h2⟩ | ⟨h1, h2, h3⟩
  · rw [if_pos h1, h2]
  · rw [if_neg h1, if_pos h2, h3]

/-- C4 counterexample: a `silence_end` marker seen before any
`silence_start` does emit an interval — with start equal to the zero
initial value of the pending-start variable — rather than emitting
nothing as claimed. -/
theorem claim_C4_counterexample :
    detectSilenceLines ["silence_end: 5"] = [⟨0, 5⟩] ∧
    detectSilenceLines ["silence_end: 5"] ≠ [] := by
  have h : detectSilenceLines ["silence_end: 5"] = [⟨0, 5⟩] := by
    simp +decide [detectSilenceLines, detectSilenceStep, parseSilenceTime, parseFloatChars,
      trimStr, trimChars, splitOnStr, splitOnCharsAux, hasPrefixChars, isSpaceChar, digitsToNat]
  refine ⟨h, ?_⟩
  rw [h]
  intro hc
  exact List.noConfusion hc

/-- C4 amended: the pending start is a variable initialised to `0`, so an
end marker always emits an interval whose start is the current pending
value (`0` when no begin marker was ever seen); a begin marker whose
timestamp parses overwrites the pending start; a trailing begin marker
emits nothing (an unterminated trailing silence is dropped); and a marker
line whose timestamp fails to parse leaves the state unchanged — the scan
skips it and continues. -/
theorem claim_C4_amended_parser_state :
    (∀ (lines : List String),
      (∀ l ∈ lines, ¬1 < (splitOnStr l "silence_start:").length) →
      ∀ p ∈ detectSilenceLines lines, p.Start = 0) ∧
    (∀ (st : ℚ × List SilencePoint) (l : String) (v : ℚ),
      1 < (splitOnStr l "silence_start:").length →
      parseSilenceTime (trimStr ((splitOnStr l "silence_start:").getD 1 "")) = some v →
      detectSilenceStep st l = (v, st.2)) ∧
    (∀ (lines : List String) (l : String),
      1 < (splitOnStr l "silence_start:").length →
      detectSilenceLines (lines ++ [l]) = detectSilenceLines lines) ∧
    (∀ (l1 l2 : List String) (l : String),
      ((1 < (splitOnStr l "silence_start:").length ∧
          parseSilenceTime (trimStr ((splitOnStr l "silence_start:").getD 1 "")) = none) ∨
        (¬1 < (splitOnStr l "silence_start:").length ∧
          1 < (splitOnStr l "silence_end:").length ∧
          parseSilenceTime (trimStr ((splitOnStr l "silence_end:").getD 1 "")) = none)) →
      detectSilenceLines (l1 ++ l :: l2) = detectSilenceLines (l1 ++ l2)) := by
  refine ⟨?_, ?_, ?_, ?_⟩
  · intro lines hl p hp
    rcases (foldl_detectSilence_noStart lines (0, []) hl).2 p hp with hmem | hst
    · cases hmem
    · exact hst
  · intro st l v h hp
    simp only [detectSilenceStep]
    rw [if_pos h, hp]
  · intro lines l h
    unfold detectSilenceLines
    rw [List.foldl_append]
    generalize lines.foldl detectSilenceStep ((0 : ℚ), ([] : List SilencePoint)) = st0
    rw [show List.foldl detectSilenceStep st0 [l] = detectSilenceStep st0 l from rfl,
      detectSilenceStep_start_snd st0 l h]
  · intro l1 l2 l h
    unfold detectSilenceLines
    rw [List.foldl_append, List.foldl_append]
    generalize l1.foldl detectSilenceStep ((0 : ℚ), ([] : List SilencePoint)) = st0
    rw [show List.foldl detectSilenceStep st0 (l :: l2) =
        List.foldl detectSilenceStep (detectSilenceStep st0 l) l2 from rfl,
      detectSilenceStep_malformed st0 l h]

/-- Witness for the amended C4 at concrete inputs. -/
theorem claim_C4_amended_parser_state_witness :
    (∀ p ∈ detectSilenceLines ["silence_end: 5"], p.Start = 0) ∧
    detectSilenceStep (1, []) "silence_start: 7" = (7, []) ∧
    detectSilenceLines ["silence_start: 7"] = detectSilenceLines [] ∧
    detectSilenceLines ["silence_end: abc"] = detectSilenceLines [] := by
  refine ⟨claim_C4_amended_parser_state.1 ["silence_end: 5"] (by decide), ?_, ?_, ?_⟩
  · exact claim_C4_amended_parser_state.2.1 (1, []) "silence_start: 7" 7 (by decide)
      (by simp +decide [parseSilenceTime, parseFloatChars, trimStr, trimChars, splitOnStr,
        splitOnCharsAux, hasPrefixChars, isSpaceChar, digitsToNat])
  · exact claim_C4_amended_parser_state.2.2.1 [] "silence_start: 7" (by decide)
  · exact claim_C4_amended_parser_state.2.2.2 [] [] "silence_end: abc"
      (Or.inr ⟨by decide, by decide,
        by simp +decide [parseSilenceTime, parseFloatChars, trimStr, trimChars, splitOnStr,
          splitOnCharsAux, hasPrefixChars, isSpaceChar, digitsToNat]⟩)

set_option maxHeartbeats 2000000 in
set_option maxRecDepth 8000 in
/-- C8: parsing `"silence_start: 12.34"` followed by
`"silence_end: 45.60 | silence_duration: 33.26"` yields exactly the one
interval `{12.34, 45.60}` — the fields after the `"|"` delimiter are
discarded and only the first whitespace-trimmed token before it is parsed —
and an unmatched trailing `silence_start` alone yields no interval. -/
theorem claim_C8_parse_example :
    detectSilenceLines
        ["silence_start: 12.34", "silence_end: 45.60 | silence_duration: 33.26"] =
      [⟨12.34, 45.60⟩] ∧
    detectSilenceLines ["silence_start: 12.34"] = [] := by
  constructor
  · simp +decide [detectSilenceLines, detectSilenceStep, parseSilenceTime, parseFloatChars,
      trimStr, trimChars, splitOnStr, splitOnCharsAux, hasPrefixChars, isSpaceChar,
      digitsToNat]
    norm_num
  · simp +decide [detectSilenceLines, detectSilenceStep, parseSilenceTime, parseFloatChars,
      trimStr, trimChars, splitOnStr, splitOnCharsAux, hasPrefixChars, isSpaceChar,
      digitsToNat]

/-- C7 (code bug): under the actual binary64 float arithmetic of
`formatSRTTime`, the input `3661.234` renders as `"01:01:01,233"`, not the
claimed `"01:01:01,234"`: the double nearest `3661.234` lies just below it,
so `(seconds - 3600 - 60 - 1) * 1000` is `233.99999…`, which `int(...)`
truncates to `233`.  Under exact rational arithmetic (the clear intent of
the spec sentence) the same formula yields `"01:01:01,234"`. -/
theorem claim_C7_formatSRTTime_float_truncation :
    formatSRTTime64 (fl64 ((3661234 : ℚ) / 1000)) = "01:01:01,233" ∧
    formatSRTTimeRat ((3661234 : ℚ) / 1000) = "01:01:01,234" := by
  have hx : fl64 ((3661234 : ℚ) / 1000) = (8051138710017671 : ℚ) / 2199023255552 := by
    rw [fl64, if_neg (by norm_num), if_pos (by norm_num), fl64pos,
      show rlog2 ((3661234 : ℚ) / 1000) = (11 : ℤ) by
        rw [rlog2]
        norm_num [qpow2, (by decide : Int.toNat 1830617 = 1830617),
          (by decide : natLog2F 128 1830617 = 20), (by decide : natLog2F 128 500 = 8)],
      show roundHalfEven (((3661234 : ℚ) / 1000) * qpow2 (52 - (11 : ℤ))) = 8051138710017671 by
        rw [roundHalfEven]
        norm_num [qpow2]]
    norm_num [qpow2]
  have hf1 : fl64 ((8051138710017671 : ℚ) / 7916483719987200) = (4580203355032275 : ℚ) / 4503599627370496 := by
    rw [fl64, if_neg (by norm_num), if_pos (by norm_num), fl64pos,
      show rlog2 ((8051138710017671 : ℚ) / 7916483719987200) = (0 : ℤ) by
        rw [rlog2]
        norm_num [qpow2, (by decide : Int.toNat 8051138710017671 = 8051138710017671),
          (by decide : natLog2F 128 8051138710017671 = 52), (by decide : natLog2F 128 7916483719987200 = 52)],
      show roundHalfEven (((8051138710017671 : ℚ) / 7916483719987200) * qpow2 (52 - (0 : ℤ))) = 4580203355032275 by
        rw [roundHalfEven]
        norm_num [qpow2]]
    norm_num [qpow2]
  have hf2 : fl64 ((3600 : ℚ)) = (3600 : ℚ) := by
    rw [fl64, if_neg (by norm_num), if_pos (by norm_num), fl64pos,
      show rlog2 ((3600 : ℚ)) = (11 : ℤ) by
        rw [rlog2]
        norm_num [qpow2, (by decide : Int.toNat 3600 = 3600),
          (by decide : natLog2F 128 3600 = 11), (by decide : natLog2F 128 1 = 0)],
      show roundHalfEven (((3600 : ℚ)) * qpow2 (52 - (11 : ℤ))) = 7916483719987200 by
        rw [roundHalfEven]
        norm_num [qpow2]]
    norm_num [qpow2]
  have hf3 : fl64 ((134654990030471 : ℚ) / 2199023255552) = (134654990030471 : ℚ) / 2199023255552 := by
    rw [fl64, if_neg (by norm_num), if_pos (by norm_num), fl64pos,
      show rlog2 ((134654990030471 : ℚ) / 2199023255552) = (5 : ℤ) by
        rw [rlog2]
        norm_num [qpow2, (by decide : Int.toNat 134654990030471 = 134654990030471),
          (by decide : natLog2F 128 134654990030471 = 46), (by decide : natLog2F 128 2199023255552 = 41)],
      show roundHalfEven (((134654990030471 : ℚ) / 2199023255552) * qpow2 (52 - (5 : ℤ))) = 8617919361950144 by
        rw [roundHalfEven]
        norm_num [qpow2]]
    norm_num [qpow2]
  have hf4 : fl64 ((134654990030471 : ℚ) / 131941395333120) = (4596223659706743 : ℚ) / 4503599627370496 := by
    rw [fl64, if_neg (by norm_num), if_pos (by norm_num), fl64pos,
      show rlog2 ((134654990030471 : ℚ) / 131941395333120) = (0 : ℤ) by
        rw [rlog2]
        norm_num [qpow2, (by decide : Int.toNat 134654990030471 = 134654990030471),
          (by decide : natLog2F 128 134654990030471 = 46), (by decide : natLog2F 128 131941395333120 = 46)],
      show roundHalfEven (((134654990030471 : ℚ) / 131941395333120) * qpow2 (52 - (0 : ℤ))) = 4596223659706743 by
        rw [roundHalfEven]
        norm_num [qpow2]]
    norm_num [qpow2]
  have hf5 : fl64 ((60 : ℚ)) = (60 : ℚ) := by
    rw [fl64, if_neg (by norm_num), if_pos (by norm_num), fl64pos,
      show rlog2 ((60 : ℚ)) = (5 : ℤ) by
        rw [rlog2]
        norm_num [qpow2, (by decide : Int.toNat 60 = 60),
          (by decide : natLog2F 128 60 = 5), (by decide : natLog2F 128 1 = 0)],
      show roundHalfEven (((60 : ℚ)) * qpow2 (52 - (5 : ℤ))) = 8444249301319680 by
        rw [roundHalfEven]
        norm_num [qpow2]]
    norm_num [qpow2]
  have hf6 : fl64 ((2713594697351 : ℚ) / 2199023255552) = (2713594697351 : ℚ) / 2199023255552 := by
    rw [fl64, if_neg (by norm_num), if_pos (by norm_num), fl64pos,
      show rlog2 ((2713594697351 : ℚ) / 2199023255552) = (0 : ℤ) by
        rw [rlog2]
        norm_num [qpow2, (by decide : Int.toNat 2713594697351 = 2713594697351),
          (by decide : natLog2F 128 2713594697351 = 41), (by decide : natLog2F 128 2199023255552 = 41)],
      show roundHalfEven (((2713594697351 : ℚ) / 2199023255552) * qpow2 (52 - (0 : ℤ))) = 5557441940174848 by
        rw [roundHalfEven]
        norm_num [qpow2]]
    norm_num [qpow2]
  have hf7 : fl64 ((514571441799 : ℚ) / 2199023255552) = (514571441799 : ℚ) / 2199023255552 := by
    rw [fl64, if_neg (by norm_num), if_pos (by norm_num), fl64pos,
      show rlog2 ((514571441799 : ℚ) / 2199023255552) = (-3 : ℤ) by
        rw [rlog2]
        norm_num [qpow2, (by decide : Int.toNat 514571441799 = 514571441799),
          (by decide : natLog2F 128 514571441799 = 38), (by decide : natLog2F 128 2199023255552 = 41)],
      show roundHalfEven (((514571441799 : ℚ) / 2199023255552) * qpow2 (52 - (-3 : ℤ))) = 8430738502434816 by
        rw [roundHalfEven]
        norm_num [qpow2]]
    norm_num [qpow2]
  have hf8 : fl64 ((64321430224875 : ℚ) / 274877906944) = (64321430224875 : ℚ) / 274877906944 := by
    rw [fl64, if_neg (by norm_num), if_pos (by norm_num), fl64pos,
      show rlog2 ((64321430224875 : ℚ) / 274877906944) = (7 : ℤ) by
        rw [rlog2]
        norm_num [qpow2, (by decide : Int.toNat 64321430224875 = 64321430224875),
          (by decide : natLog2F 128 64321430224875 = 45), (by decide : natLog2F 128 274877906944 = 38)],
      show roundHalfEven (((64321430224875 : ℚ) / 274877906944) * qpow2 (52 - (7 : ℤ))) = 8233143068784000 by
        rw [roundHalfEven]
        norm_num [qpow2]]
    norm_num [qpow2]
  have hbig : formatSRTTime64 ((8051138710017671 : ℚ) / 2199023255552) =
      formatSRT 1 1 1 233 := by
    norm_num [formatSRTTime64, fdiv, fsub, fmul, truncQ, hf1, hf2, hf3, hf4, hf5, hf6,
      hf7, hf8]
  have hrat : formatSRTTimeRat ((3661234 : ℚ) / 1000) = formatSRT 1 1 1 234 := by
    norm_num [formatSRTTimeRat, truncQ]
  refine ⟨?_, ?_⟩
  · rw [hx, hbig]
    decide
  · rw [hrat]
    decide
